import Mathlib

/-!
# migalpha/demo: partition, render, aggregate

A shallow embedding of `main.go` (the third, uncommented approach): the driver's
partition loop, the worker `stringBuilder`, the `%06x` verb of `fmt.Fprintf` it calls,
the writer goroutine's append loop and the driver's wait loop.

Go's `int` is modelled as `Int` with every arithmetic result reduced to 64-bit two's
complement (`wrapInt`), the width of `int` on the 64-bit targets. Loops that Go runs
until a condition fails take a fuel argument and return `none` when it runs out.
-/

namespace Demo

/-! ## Data model -/

/-- A Go string: a sequence of bytes. Every byte written by this program is ASCII. -/
abbrev GoString := List Char

/-- The constant `end` of `main.go` (line 11). -/
def endVal : Int := 16777215

/-- The constant `numGoRoutines` of `main.go` (lines 12 and 81). -/
def numGoRoutines : Int := 10

/-- Largest value of a 64-bit `int`. -/
def maxInt : Int := 9223372036854775807

/-- Two's-complement wrap-around of a 64-bit `int` result. -/
def wrapInt (x : Int) : Int :=
  (x + 9223372036854775808) % 18446744073709551616 - 9223372036854775808

/-! ## `fmt.Fprintf(&builder, "%06x\n", i)` -/

/-- The digit table `ldigits` of package `fmt`. -/
def ldigits : List Char := "0123456789abcdefx".toList

/-- One lowercase hexadecimal digit, `ldigits[d]`. -/
def hexDigit (d : Nat) : Char := ldigits.getD d '0'

/-- The digit loop of `fmt`: digits of `u` are produced from the least significant one
and stored in front of what is already there. A 64-bit value has at most 16 digits,
so 16 rounds always reach the last digit. -/
def fmtHexDigits : Nat → Nat → List Char → List Char
  | 0, u, acc => hexDigit (u % 16) :: acc
  | fuel + 1, u, acc =>
    if 16 ≤ u then fmtHexDigits fuel (u / 16) (hexDigit (u % 16) :: acc)
    else hexDigit u :: acc

/-- The verb `%06x` applied to an `int`: lowercase hexadecimal of the magnitude, padded
with leading zeros to width 6, the sign of a negative number taking one column. -/
def fmt06x (i : Int) : GoString :=
  let ds := fmtHexDigits 16 i.natAbs []
  if i < 0 then '-' :: (List.replicate (5 - ds.length) '0' ++ ds)
  else List.replicate (6 - ds.length) '0' ++ ds

/-! ## The worker -/

/-- The loop of `stringBuilder` (lines 104-106): `for i := start; i <= end; i++`. -/
def stringBuilderLoop (endV : Int) : Nat → Int → GoString → Option GoString
  | 0, _, _ => none
  | fuel + 1, i, builder =>
    if i ≤ endV then
      stringBuilderLoop endV fuel (wrapInt (i + 1)) (builder ++ (fmt06x i ++ ['\n']))
    else some builder

/-- The string `stringBuilder(start, end, result, done)` sends on `result` (line 107);
the completion signal on `done` follows it (line 108). -/
def stringBuilder (fuel : Nat) (start endV : Int) : Option GoString :=
  stringBuilderLoop endV fuel start []

/-! ## The driver -/

/-- The partition loop of `main` (lines 83-89): the `(i, next)` pairs handed to
`go stringBuilder(i, next, ...)`, in launch order. Dividing by zero is a run-time panic
in Go: no list is produced. -/
def partitionLoop (endV nGo : Int) : Nat → Int → Option (List (Int × Int))
  | 0, _ => none
  | fuel + 1, i =>
    if i ≤ endV then
      if nGo = 0 then none
      else
        let sum := wrapInt (i + wrapInt (Int.tdiv endV nGo))
        let next := if sum > endV then endV else sum
        (partitionLoop endV nGo fuel (wrapInt (sum + 1))).map ((i, next) :: ·)
    else some []

/-- The chunks the launched workers build, in launch order. -/
def buildChunks (fuel : Nat) : List (Int × Int) → Option (List GoString)
  | [] => some []
  | r :: rs =>
    match stringBuilder fuel r.1 r.2, buildChunks fuel rs with
    | some c, some cs => some (c :: cs)
    | _, _ => none

/-- The writer goroutine (lines 74-79): every string received on `writerCh` is appended
to the file, in arrival order. The result is the file's content. -/
def writer (received : List GoString) : GoString :=
  received.foldl (fun file s => file ++ s) []

/-- The wait loop of `main` (lines 91-96), `for doneNum < numGoRoutines`. Every launched
worker offers one completion signal; `pending` counts the signals not yet received.
A receive with no signal pending blocks for ever (`none`). The result is the final
`doneNum` and the number of workers still blocked on their send. -/
def awaitWorkers (nGo : Int) : Nat → Int → Option (Int × Nat)
  | pending, doneNum =>
    if doneNum < nGo then
      match pending with
      | 0 => none
      | p + 1 => awaitWorkers nGo p (wrapInt (doneNum + 1))
    else some (doneNum, pending)

/-! ## Reading the output back -/

/-- The value of one lowercase hexadecimal digit, `0-9` and `a-f` only. -/
def hexVal (c : Char) : Option Nat :=
  if '0' ≤ c ∧ c ≤ '9' then some (c.toNat - 48)
  else if 'a' ≤ c ∧ c ≤ 'f' then some (c.toNat - 87)
  else none

/-- Reads digits as a base-16 numeral, most significant first, onto `acc`. -/
def readHexFrom : Nat → List Char → Option Nat
  | acc, [] => some acc
  | acc, c :: cs =>
    match hexVal c with
    | some d => readHexFrom (acc * 16 + d) cs
    | none => none

/-- The number a string of lowercase hexadecimal digits denotes. -/
def readHex (s : GoString) : Option Nat := readHexFrom 0 s

/-- Splits a text into its newline-terminated lines (terminators dropped); `cur` holds
the current line reversed. Text after the last newline makes the split fail. -/
def linesFrom : GoString → GoString → Option (List GoString)
  | [], [] => some []
  | [], _ :: _ => none
  | c :: cs, cur =>
    if c = '\n' then (linesFrom cs []).map (cur.reverse :: ·)
    else linesFrom cs (c :: cur)

/-- The newline-terminated lines of a text. -/
def linesOf (s : GoString) : Option (List GoString) := linesFrom s []

/-- The zero-padded lowercase hexadecimal numeral of `n` with exactly `width` digits,
most significant digit first. -/
def hexFixed : Nat → Nat → GoString
  | 0, _ => []
  | width + 1, n => hexDigit (n / 16 ^ width % 16) :: hexFixed width (n % 16 ^ width)

/-- The 6-digit zero-padded lowercase hexadecimal of `n`, as the specification words it. -/
def hex6 (n : Nat) : GoString := hexFixed 6 n

/-- Number of integers in the closed range `[r.1, r.2]`. -/
def rangeSize (r : Int × Int) : Int := r.2 - r.1 + 1

/-- Whether `k` lies in the closed range `[r.1, r.2]`. -/
def inRange (k : Int) (r : Int × Int) : Bool := decide (r.1 ≤ k) && decide (k ≤ r.2)

/-! ## Closed forms used in the proofs -/

/-- The ranges the partition loop yields when no addition wraps: range `k` starts at
`k * (e / w + 1)` and ends `e / w` later, clamped to `e`. -/
def closedRanges (e w : Nat) : List (Int × Int) :=
  (List.range (e / (e / w + 1) + 1)).map fun k =>
    (((k * (e / w + 1) : Nat) : Int), ((min (k * (e / w + 1) + e / w) e : Nat) : Int))

/-- The text made of the given lines, each followed by one newline. -/
def renderLines (ls : List GoString) : GoString := ls.flatMap fun l => l ++ ['\n']

/-- The lines of the chunk for the `n` integers from `a` on. -/
def chunkLines (a n : Nat) : List GoString := (List.range n).map fun k => hex6 (a + k)

/-- The lines of every chunk, one list per range, in launch order. -/
def lineLists (rs : List (Int × Int)) : List (List GoString) :=
  rs.map fun r => chunkLines r.1.toNat (r.2 - r.1 + 1).toNat

/-! ## Sanity checks on concrete inputs -/

example : fmt06x 255 = "0000ff".toList := by decide
example : fmt06x 16777215 = "ffffff".toList := by decide
example : fmt06x (-1) = "-00001".toList := by decide
example : fmt06x 16777216 = "1000000".toList := by decide
example : hex6 255 = "0000ff".toList := by decide
example : partitionLoop 25 4 27 0 = some [(0, 6), (7, 13), (14, 20), (21, 25)] := by decide
example : partitionLoop 6 2 8 0 = some [(0, 3), (4, 6)] := by decide
example : partitionLoop 5 4 7 0 = some [(0, 1), (2, 3), (4, 5)] := by decide
example : stringBuilder 5 4 6 = some "000004\n000005\n000006\n".toList := by decide
example : linesOf "000004\n000005\n".toList = some ["000004".toList, "000005".toList] := by
  decide
example : readHex "0000ff".toList = some 255 := by decide
example : awaitWorkers 4 3 0 = none := by decide
example : awaitWorkers 4 4 0 = some (4, 0) := by decide
example : partitionLoop endVal numGoRoutines 12 0 = some
    [(0, 1677721), (1677722, 3355443), (3355444, 5033165), (5033166, 6710887),
     (6710888, 8388609), (8388610, 10066331), (10066332, 11744053),
     (11744054, 13421775), (13421776, 15099497), (15099498, 16777215)] := by decide

/-! ## Machine arithmetic -/

theorem wrapInt_eq (x : Int) (h1 : -9223372036854775808 ≤ x)
    (h2 : x < 9223372036854775808) : wrapInt x = x := by
  unfold wrapInt; omega

theorem wrapInt_le_maxInt (x : Int) : wrapInt x ≤ maxInt := by
  unfold wrapInt maxInt; omega

/-! ## The partition loop in closed form -/

theorem partition_step_arith (i q e : Nat) (hi : i ≤ e)
    (hb : e + q + 1 < 9223372036854775808) :
    wrapInt (q : Int) = (q : Int) ∧
    wrapInt ((i : Int) + (q : Int)) = ((i + q : Nat) : Int) ∧
    wrapInt (((i + q : Nat) : Int) + 1) = ((i + (q + 1) : Nat) : Int) := by
  refine ⟨wrapInt_eq _ (by omega) (by omega), ?_, ?_⟩
  · rw [wrapInt_eq _ (by omega) (by omega)]; omega
  · rw [wrapInt_eq _ (by omega) (by omega)]; omega

theorem partitionLoop_from (e w q : Nat) (hw : 1 ≤ w) (hq : e / w = q)
    (hb : e + q + 1 < 9223372036854775808) :
    ∀ (n i fuel : Nat), n < fuel → (∀ k, k < n → i + k * (q + 1) ≤ e) →
      e < i + n * (q + 1) →
      partitionLoop e w fuel (i : Int) = some ((List.range n).map fun k =>
        (((i + k * (q + 1) : Nat) : Int), ((min (i + k * (q + 1) + q) e : Nat) : Int))) := by
  intro n
  induction n with
  | zero =>
    intro i fuel hf _ hstop
    obtain ⟨f, rfl⟩ : ∃ f, fuel = f + 1 := ⟨fuel - 1, by omega⟩
    have : ¬ ((i : Int) ≤ (e : Int)) := by omega
    simp [partitionLoop, this]
  | succ n ih =>
    intro i fuel hf hle hstop
    obtain ⟨f, rfl⟩ : ∃ f, fuel = f + 1 := ⟨fuel - 1, by omega⟩
    have hi : i ≤ e := by simpa using hle 0 (by omega)
    have hw0 : ¬ ((w : Int) = 0) := by omega
    have hdiv : Int.tdiv (e : Int) (w : Int) = (q : Int) := by rw [← hq]; rfl
    have hrec := ih (i + (q + 1)) f (by omega)
      (fun k hk => by have := hle (k + 1) (by omega); rw [Nat.succ_mul] at this; omega)
      (by rw [Nat.succ_mul] at hstop; omega)
    have hi' : ((i : Int) ≤ (e : Int)) := by omega
    have hclamp : (if ((i + q : Nat) : Int) > (e : Int) then (e : Int)
        else ((i + q : Nat) : Int)) = ((min (i + q) e : Nat) : Int) := by
      by_cases hc : (e : Int) < ((i + q : Nat) : Int)
      · rw [if_pos hc]; omega
      · rw [if_neg hc]; omega
    have hidx : ∀ k, i + (k + 1) * (q + 1) = i + (q + 1) + k * (q + 1) := fun k => by
      rw [Nat.succ_mul]; omega
    obtain ⟨hq1, hs, hs1⟩ := partition_step_arith i q e hi hb
    rw [partitionLoop, if_pos hi', if_neg hw0]
    simp only [hdiv, hq1, hs, hs1, hrec, Option.map_some', hclamp]
    rw [List.range_succ_eq_map, List.map_cons, List.map_map]
    refine congrArg some (congrArg₂ List.cons ?_ ?_)
    · simp
    · refine List.map_congr_left fun k _ => ?_
      simp only [Function.comp, Nat.succ_eq_add_one, hidx]

theorem partitionLoop_closed (e w : Nat) (hw : 1 ≤ w)
    (hb : e + e / w + 1 < 9223372036854775808) (fuel : Nat) (hf : e + 2 ≤ fuel) :
    partitionLoop e w fuel 0 = some (closedRanges e w) := by
  unfold closedRanges
  generalize hq : e / w = q at hb ⊢
  have hpos : 0 < q + 1 := Nat.succ_pos _
  have hlt : e < (e / (q + 1) + 1) * (q + 1) := by
    have := Nat.lt_succ_iff.2 (Nat.le_refl (e / (q + 1)))
    exact (Nat.div_lt_iff_lt_mul hpos).1 this
  have h := partitionLoop_from e w q hw hq hb (e / (q + 1) + 1) 0 fuel
    (by have := Nat.div_le_self e (q + 1); omega)
    (fun k hk => by
      have hk' : k ≤ e / (q + 1) := by omega
      have := (Nat.le_div_iff_mul_le hpos).1 hk'
      omega)
    (by omega)
  simpa using h

/-- The partition loop on Go integers, under the bound that keeps its additions from
wrapping: with enough fuel it returns the closed form. -/
theorem partitionLoop_eq (END W : Int) (h0 : 0 ≤ END) (hW : 1 ≤ W)
    (hb : END + END / W + 1 ≤ maxInt) (fuel : Nat) (hf : END.toNat + 2 ≤ fuel) :
    partitionLoop END W fuel 0 = some (closedRanges END.toNat W.toNat) := by
  obtain ⟨e, rfl⟩ := Int.eq_ofNat_of_zero_le h0
  obtain ⟨w, rfl⟩ := Int.eq_ofNat_of_zero_le (by omega : (0 : Int) ≤ W)
  simp only [Int.toNat_ofNat] at hf ⊢
  have hb' : ((e + e / w + 1 : Nat) : Int) ≤ maxInt := by push_cast; exact hb
  unfold maxInt at hb'
  refine partitionLoop_closed e w (by omega) ?_ fuel hf
  generalize e / w = q at hb'
  omega

/-! ## Facts about the closed form -/

theorem closedRanges_length (e w : Nat) :
    (closedRanges e w).length = e / (e / w + 1) + 1 := by
  simp [closedRanges]

theorem closedRanges_getElem? (e w j : Nat) (r : Int × Int)
    (h : (closedRanges e w)[j]? = some r) :
    j < e / (e / w + 1) + 1 ∧
    r = (((j * (e / w + 1) : Nat) : Int), ((min (j * (e / w + 1) + e / w) e : Nat) : Int)) := by
  unfold closedRanges at h
  rw [List.getElem?_map] at h
  cases hj : (List.range (e / (e / w + 1) + 1))[j]? with
  | none => rw [hj] at h; simp at h
  | some v =>
    rw [hj] at h
    have hlt : j < e / (e / w + 1) + 1 := by
      by_contra hc
      rw [List.getElem?_eq_none (by simpa using Nat.le_of_not_lt hc)] at hj
      simp at hj
    rw [List.getElem?_range hlt] at hj
    cases hj
    simp only [Option.map_some', Option.some.injEq] at h
    exact ⟨hlt, h.symm⟩

theorem closedRanges_mem (e w : Nat) (r : Int × Int) (h : r ∈ closedRanges e w) :
    ∃ j, j < e / (e / w + 1) + 1 ∧
    r = (((j * (e / w + 1) : Nat) : Int), ((min (j * (e / w + 1) + e / w) e : Nat) : Int)) := by
  unfold closedRanges at h
  obtain ⟨j, hj, rfl⟩ := List.mem_map.1 h
  exact ⟨j, List.mem_range.1 hj, rfl⟩

/-- Index arithmetic of the closed form: range `j` exists exactly when its start is at
most `e`, and the start of the range after the last one is beyond `e`. -/
theorem closedRanges_index (e s j : Nat) (hs : 0 < s) :
    (j < e / s + 1 ↔ j * s ≤ e) ∧ e < (e / s + 1) * s := by
  refine ⟨?_, ?_⟩
  · rw [Nat.lt_succ_iff, Nat.le_div_iff_mul_le hs]
  · exact (Nat.div_lt_iff_lt_mul hs).1 (Nat.lt_succ_iff.2 (Nat.le_refl _))

theorem closedRanges_length_le (e w : Nat) (hw : 1 ≤ w) :
    (closedRanges e w).length ≤ w := by
  rw [closedRanges_length]
  have hs : 0 < e / w + 1 := Nat.succ_pos _
  have h1 : e < w * (e / w + 1) := by
    have := Nat.lt_succ_iff.2 (Nat.le_refl (e / w))
    have := (Nat.div_lt_iff_lt_mul (by omega : 0 < w)).1 this
    rw [Nat.mul_comm]; exact this
  have := (Nat.div_lt_iff_lt_mul hs).2 h1
  omega

theorem closedRanges_countP (e w : Nat) (k : Int) (h0 : 0 ≤ k) (hk : k ≤ e) :
    (closedRanges e w).countP (inRange k) = 1 := by
  obtain ⟨m, rfl⟩ := Int.eq_ofNat_of_zero_le h0
  have hm : m ≤ e := by omega
  unfold closedRanges
  rw [List.countP_map]
  generalize e / w = q
  have hs : 0 < q + 1 := Nat.succ_pos _
  have key : ∀ j ∈ List.range (e / (q + 1) + 1),
      ((inRange (m : Int) ∘ fun k : Nat =>
        (((k * (q + 1) : Nat) : Int), ((min (k * (q + 1) + q) e : Nat) : Int))) j = true ↔
       (j == m / (q + 1)) = true) := by
    intro j _
    have h1 := (closedRanges_index m (q + 1) j hs).1
    have h2 := (closedRanges_index m (q + 1) (j + 1) hs).1
    have h3 : (j + 1) * (q + 1) = j * (q + 1) + q + 1 := by rw [Nat.succ_mul]; omega
    simp only [Function.comp, inRange, Bool.and_eq_true, decide_eq_true_eq, beq_iff_eq,
      Int.ofNat_le]
    constructor
    · rintro ⟨ha, hb⟩
      have : ¬ (j + 1) * (q + 1) ≤ m := by omega
      have := mt h2.1
      omega
    · rintro rfl
      have ha := Nat.div_mul_le_self m (q + 1)
      have hb := (closedRanges_index m (q + 1) 0 hs).2
      rw [Nat.succ_mul] at hb
      omega
  rw [List.countP_congr key]
  have hmem : m / (q + 1) ∈ List.range (e / (q + 1) + 1) :=
    List.mem_range.2 (Nat.lt_succ_iff.2 (Nat.div_le_div_right hm))
  exact List.count_eq_one_of_mem (List.nodup_range _) hmem

theorem closedRanges_inRange (e w : Nat) (r : Int × Int) (hr : r ∈ closedRanges e w)
    (k : Int) (hk : inRange k r = true) : 0 ≤ k ∧ k ≤ e := by
  obtain ⟨j, _, rfl⟩ := closedRanges_mem e w r hr
  simp only [inRange, Bool.and_eq_true, decide_eq_true_eq] at hk
  generalize e / w = q at hk
  omega

/-! ## The wait loop -/

theorem awaitWorkers_eq (W : Int) : ∀ (pending : Nat) (d : Int), 0 ≤ d →
    d + pending ≤ W → d + pending ≤ maxInt →
    awaitWorkers W pending d = if d + pending = W then some (W, 0) else none := by
  intro pending
  induction pending with
  | zero =>
    intro d _ h2 _
    unfold awaitWorkers
    by_cases hd : d < W
    · have : ¬ (d = W) := by omega
      simp [hd, this]
    · have : d = W := by omega
      simp [this]
  | succ p ih =>
    intro d h1 h2 h3
    have hd : d < W := by omega
    have hwrap : wrapInt (d + 1) = d + 1 :=
      wrapInt_eq _ (by omega) (by unfold maxInt at h3; omega)
    have hrec := ih (d + 1) (by omega) (by omega) (by omega)
    have hcond : (d + 1 + (p : Int) = W) ↔ (d + ((p + 1 : Nat) : Int) = W) := by omega
    unfold awaitWorkers
    simp only [hd, if_true, hwrap, hrec, hcond]

/-! ## A loop that never ends -/

theorem partitionLoop_maxInt (W : Int) (hW : ¬ W = 0) :
    ∀ (fuel : Nat) (i : Int), i ≤ maxInt → partitionLoop maxInt W fuel i = none := by
  intro fuel
  induction fuel with
  | zero => intro i _; rfl
  | succ f ih =>
    intro i hi
    rw [partitionLoop, if_pos hi, if_neg hW]
    simp only [ih _ (wrapInt_le_maxInt _), Option.map_none']

/-! ## Hexadecimal digits -/

theorem hexDigit_facts : ∀ d, d < 16 →
    hexVal (hexDigit d) = some d ∧ hexDigit d ∈ "0123456789abcdef".toList ∧
    hexDigit d ≠ '\n' := by
  decide

theorem hexDigit_strictMono : ∀ a, a < 16 → ∀ b, b < 16 → a < b →
    hexDigit a < hexDigit b := by
  decide

theorem hexFixed_length (n u : Nat) : (hexFixed n u).length = n := by
  induction n generalizing u with
  | zero => rfl
  | succ n ih => simp [hexFixed, ih]

theorem hexFixed_mem (n u : Nat) (c : Char) (hc : c ∈ hexFixed n u) :
    c ∈ "0123456789abcdef".toList ∧ c ≠ '\n' := by
  induction n generalizing u with
  | zero => simp [hexFixed] at hc
  | succ n ih =>
    simp only [hexFixed, List.mem_cons] at hc
    rcases hc with rfl | hc
    · have := hexDigit_facts (u / 16 ^ n % 16) (Nat.mod_lt _ (by decide))
      exact ⟨this.2.1, this.2.2⟩
    · exact ih _ hc

theorem readHexFrom_hexFixed (n u acc : Nat) :
    readHexFrom acc (hexFixed n u) = some (acc * 16 ^ n + u % 16 ^ n) := by
  induction n generalizing u acc with
  | zero => simp [hexFixed, readHexFrom, Nat.mod_one]
  | succ n ih =>
    have hd := (hexDigit_facts (u / 16 ^ n % 16) (Nat.mod_lt _ (by decide))).1
    simp only [hexFixed, readHexFrom, hd, ih, Nat.mod_mod, Option.some.injEq]
    rw [Nat.mod_pow_succ]
    ring

theorem readHex_hexFixed (n u : Nat) (hu : u < 16 ^ n) :
    readHex (hexFixed n u) = some u := by
  rw [readHex, readHexFrom_hexFixed, Nat.mod_eq_of_lt hu]
  simp

theorem hexFixed_succ_eq (n u : Nat) :
    hexFixed (n + 1) u = hexFixed n (u / 16) ++ [hexDigit (u % 16)] := by
  induction n generalizing u with
  | zero => simp [hexFixed]
  | succ n ih =>
    rw [hexFixed, ih (u % 16 ^ (n + 1))]
    have h1 : u % 16 ^ (n + 1) / 16 = u / 16 % 16 ^ n := by
      rw [pow_succ', Nat.mod_mul_right_div_self]
    have h2 : u % 16 ^ (n + 1) % 16 = u % 16 :=
      Nat.mod_mod_of_dvd _ (Dvd.intro_left (16 ^ n) rfl)
    have h3 : u / 16 ^ (n + 1) = u / 16 / 16 ^ n := by
      rw [pow_succ', Nat.div_div_eq_div_mul]
    rw [h1, h2, h3]
    conv_rhs => rw [hexFixed]
    simp

theorem hexFixed_zero (n : Nat) : hexFixed n 0 = List.replicate n '0' := by
  induction n with
  | zero => rfl
  | succ n ih => simp [hexFixed, ih, List.replicate_succ]; rfl

theorem hexFixed_lt (n u v : Nat) (huv : u < v) (hv : v < 16 ^ n) :
    List.lt (hexFixed n u) (hexFixed n v) := by
  induction n generalizing u v with
  | zero => simp at hv; omega
  | succ n ih =>
    have hpos : 0 < 16 ^ n := Nat.pow_pos (by decide)
    have hu16 : u / 16 ^ n < 16 := by
      rw [Nat.div_lt_iff_lt_mul hpos, ← pow_succ']; omega
    have hv16 : v / 16 ^ n < 16 := by
      rw [Nat.div_lt_iff_lt_mul hpos, ← pow_succ']; omega
    have hle : u / 16 ^ n ≤ v / 16 ^ n := Nat.div_le_div_right (Nat.le_of_lt huv)
    simp only [hexFixed, Nat.mod_eq_of_lt hu16, Nat.mod_eq_of_lt hv16]
    rcases Nat.lt_or_eq_of_le hle with hlt | heq
    · exact List.lt.head _ _ (hexDigit_strictMono _ hu16 _ hv16 hlt)
    · rw [heq]
      refine List.lt.tail (lt_irrefl _) (lt_irrefl _) (ih _ _ ?_ (Nat.mod_lt _ hpos))
      have hu := Nat.div_add_mod u (16 ^ n)
      have hv' := Nat.div_add_mod v (16 ^ n)
      rw [heq] at hu
      generalize 16 ^ n * (v / 16 ^ n) = a at hu hv'
      omega

/-! ## The verb `%06x` -/

theorem fmtHexDigits_eq (n : Nat) : ∀ (fuel u : Nat) (acc : List Char),
    u < 16 ^ (n + 1) → n ≤ fuel →
    ∃ ds, fmtHexDigits fuel u acc = ds ++ acc ∧ ds.length ≤ n + 1 ∧
      List.replicate (n + 1 - ds.length) '0' ++ ds = hexFixed (n + 1) u := by
  induction n with
  | zero =>
    intro fuel u acc hu _
    have hu' : u < 16 := by simpa using hu
    refine ⟨[hexDigit u], ?_, by simp, ?_⟩
    · cases fuel with
      | zero => simp [fmtHexDigits, Nat.mod_eq_of_lt hu']
      | succ f => simp [fmtHexDigits, Nat.not_le.2 hu']
    · simp [hexFixed, Nat.mod_eq_of_lt hu']
  | succ n ih =>
    intro fuel u acc hu hf
    obtain ⟨f, rfl⟩ : ∃ f, fuel = f + 1 := ⟨fuel - 1, by omega⟩
    by_cases h16 : 16 ≤ u
    · have hdiv : u / 16 < 16 ^ (n + 1) := by
        rw [Nat.div_lt_iff_lt_mul (by decide)]
        rw [pow_succ] at hu; exact hu
      obtain ⟨ds, h1, h2, h3⟩ := ih f (u / 16) (hexDigit (u % 16) :: acc) hdiv (by omega)
      refine ⟨ds ++ [hexDigit (u % 16)], ?_, by simp; omega, ?_⟩
      · simp [fmtHexDigits, h16, h1]
      · rw [hexFixed_succ_eq, ← h3]
        simp
    · have hu' : u < 16 := Nat.not_le.1 h16
      refine ⟨[hexDigit u], ?_, by simp, ?_⟩
      · simp [fmtHexDigits, h16]
      · rw [hexFixed_succ_eq, Nat.div_eq_of_lt hu', hexFixed_zero, Nat.mod_eq_of_lt hu']
        simp

theorem fmt06x_eq_hex6 (m : Nat) (hm : m < 16777216) : fmt06x (m : Int) = hex6 m := by
  obtain ⟨ds, h1, h2, h3⟩ := fmtHexDigits_eq 5 16 m [] (by simpa using hm) (by decide)
  have hneg : ¬ ((m : Int) < 0) := by omega
  simp only [fmt06x, Int.natAbs_ofNat, hneg, if_false, h1, List.append_nil, hex6]
  exact h3

/-! ## The worker loop in closed form -/

theorem stringBuilderLoop_from (endV : Int) (hE : endV + 1 ≤ maxInt) :
    ∀ (n fuel : Nat) (i : Int) (builder : GoString), n < fuel → i + n = endV + 1 →
      -9223372036854775808 ≤ i →
      stringBuilderLoop endV fuel i builder =
        some (builder ++ (List.range n).flatMap fun k => fmt06x (i + (k : Nat)) ++ ['\n']) := by
  unfold maxInt at hE
  intro n
  induction n with
  | zero =>
    intro fuel i b hf hi _
    obtain ⟨f, rfl⟩ : ∃ f, fuel = f + 1 := ⟨fuel - 1, by omega⟩
    have : ¬ (i ≤ endV) := by omega
    simp [stringBuilderLoop, this]
  | succ n ih =>
    intro fuel i b hf hi hlo
    obtain ⟨f, rfl⟩ : ∃ f, fuel = f + 1 := ⟨fuel - 1, by omega⟩
    have hle : i ≤ endV := by omega
    have hrec := ih f (i + 1) (b ++ (fmt06x i ++ ['\n'])) (by omega) (by omega) (by omega)
    have hidx : ∀ k : Nat, i + ((k + 1 : Nat) : Int) = i + 1 + (k : Int) := fun k => by
      omega
    have hw : wrapInt (i + 1) = i + 1 := wrapInt_eq _ (by omega) (by omega)
    rw [stringBuilderLoop, if_pos hle, hw, hrec, List.range_succ_eq_map, List.flatMap_cons,
      List.flatMap_map]
    simp only [Nat.succ_eq_add_one, hidx, Nat.cast_zero, add_zero, List.append_assoc]

theorem flatMap_congr_mem {α β : Type} (l : List α) (f g : α → List β)
    (h : ∀ x ∈ l, f x = g x) : l.flatMap f = l.flatMap g := by
  rw [List.flatMap_def, List.flatMap_def, List.map_congr_left h]

theorem stringBuilder_eq (a b : Nat) (hab : a ≤ b) (hb : b ≤ 16777215) (fuel : Nat)
    (hf : b - a + 2 ≤ fuel) :
    stringBuilder fuel (a : Int) (b : Int) = some (renderLines (chunkLines a (b - a + 1))) := by
  have h := stringBuilderLoop_from (b : Int) (by unfold maxInt; omega) (b - a + 1) fuel
    (a : Int) [] (by omega) (by omega) (by omega)
  rw [stringBuilder, h, renderLines, chunkLines, List.flatMap_map, List.nil_append]
  refine congrArg some (flatMap_congr_mem _ _ _ fun k hk => ?_)
  have hk' := List.mem_range.1 hk
  have : ((a : Int) + (k : Int)) = ((a + k : Nat) : Int) := by omega
  rw [this, fmt06x_eq_hex6 _ (by omega)]

/-! ## Splitting into lines -/

theorem linesFrom_line (l : GoString) (hl : ∀ c ∈ l, c ≠ '\n') (rest cur : GoString) :
    linesFrom (l ++ '\n' :: rest) cur =
      (linesFrom rest []).map fun ls => (cur.reverse ++ l) :: ls := by
  induction l generalizing cur with
  | nil => simp [linesFrom]
  | cons c l ih =>
    have hc : c ≠ '\n' := hl c (List.mem_cons_self _ _)
    have hl' : ∀ d ∈ l, d ≠ '\n' := fun d hd => hl d (List.mem_cons_of_mem _ hd)
    rw [List.cons_append, linesFrom, if_neg hc, ih hl']
    simp

theorem linesFrom_renderLines (ls : List GoString) (hls : ∀ l ∈ ls, ∀ c ∈ l, c ≠ '\n')
    (rest : GoString) :
    linesFrom (renderLines ls ++ rest) [] = (linesFrom rest []).map fun t => ls ++ t := by
  induction ls with
  | nil => simp [renderLines]
  | cons l ls ih =>
    have h1 := hls l (List.mem_cons_self _ _)
    have h2 : ∀ l' ∈ ls, ∀ c ∈ l', c ≠ '\n' := fun l' hl' =>
      hls l' (List.mem_cons_of_mem _ hl')
    have hshape : renderLines (l :: ls) ++ rest = l ++ '\n' :: (renderLines ls ++ rest) := by
      simp [renderLines]
    rw [hshape, linesFrom_line l h1, ih h2, Option.map_map]
    simp only [List.reverse_nil, List.nil_append, List.cons_append]
    rfl

theorem linesOf_renderLines (ls : List GoString) (hls : ∀ l ∈ ls, ∀ c ∈ l, c ≠ '\n') :
    linesOf (renderLines ls) = some ls := by
  have := linesFrom_renderLines ls hls []
  rw [List.append_nil] at this
  rw [linesOf, this]
  simp [linesFrom]

theorem renderLines_length (ls : List GoString) (n : Nat) (h : ∀ l ∈ ls, l.length = n) :
    (renderLines ls).length = (n + 1) * ls.length := by
  induction ls with
  | nil => simp [renderLines]
  | cons l ls ih =>
    have h1 := h l (List.mem_cons_self _ _)
    have h2 := ih fun l' hl' => h l' (List.mem_cons_of_mem _ hl')
    simp only [renderLines, List.flatMap_cons, List.length_append, List.length_cons,
      List.length_nil] at h2 ⊢
    rw [h2, h1]
    ring

theorem chunkLines_getElem? (a n k : Nat) (l : GoString) (h : (chunkLines a n)[k]? = some l) :
    k < n ∧ l = hex6 (a + k) := by
  unfold chunkLines at h
  rw [List.getElem?_map] at h
  by_cases hk : k < n
  · rw [List.getElem?_range hk] at h
    simp only [Option.map_some', Option.some.injEq] at h
    exact ⟨hk, h.symm⟩
  · rw [List.getElem?_eq_none (by simpa using Nat.le_of_not_lt hk)] at h
    simp at h

theorem chunkLines_no_newline (a n : Nat) : ∀ l ∈ chunkLines a n, ∀ c ∈ l, c ≠ '\n' := by
  intro l hl c hc
  obtain ⟨k, _, rfl⟩ := List.mem_map.1 hl
  exact (hexFixed_mem 6 _ c hc).2

/-! ## All chunks together -/

theorem writer_eq_flatten (received : List GoString) : writer received = received.flatten := by
  have h : ∀ (l : List GoString) (acc : GoString),
      l.foldl (fun file s => file ++ s) acc = acc ++ l.flatten := by
    intro l
    induction l with
    | nil => intro acc; simp
    | cons x l ih => intro acc; simp [ih]
  simpa [writer] using h received []

theorem ranges_flatten_upto (e q m : Nat) (hm : m * (q + 1) ≤ e + 1) :
    ((List.range m).flatMap fun k =>
      (List.range (min (k * (q + 1) + q) e - k * (q + 1) + 1)).map fun t => k * (q + 1) + t) =
      List.range (m * (q + 1)) := by
  induction m with
  | zero => simp
  | succ m ih =>
    rw [Nat.succ_mul] at hm
    have hmin : min (m * (q + 1) + q) e - m * (q + 1) + 1 = q + 1 := by omega
    rw [List.range_succ, List.flatMap_append, ih (by omega), List.flatMap_singleton, hmin,
      Nat.succ_mul, List.range_add (m * (q + 1)) (q + 1)]

theorem ranges_flatten (e q : Nat) :
    ((List.range (e / (q + 1) + 1)).flatMap fun k =>
      (List.range (min (k * (q + 1) + q) e - k * (q + 1) + 1)).map fun t => k * (q + 1) + t) =
      List.range (e + 1) := by
  have h1 := Nat.div_mul_le_self e (q + 1)
  have h2 := (closedRanges_index e (q + 1) 0 (Nat.succ_pos _)).2
  rw [Nat.succ_mul] at h2
  rw [List.range_succ, List.flatMap_append, ranges_flatten_upto e q _ (by omega),
    List.flatMap_singleton]
  generalize e / (q + 1) * (q + 1) = a at h1 h2
  have hmin : min (a + q) e - a + 1 = e - a + 1 := by omega
  have hsum : e + 1 = a + (e - a + 1) := by omega
  rw [hmin]
  conv_rhs => rw [hsum, List.range_add a (e - a + 1)]

theorem lineLists_flatten (e w : Nat) :
    (lineLists (closedRanges e w)).flatten = (List.range (e + 1)).map hex6 := by
  rw [← ranges_flatten e (e / w), List.map_flatMap, lineLists, closedRanges, List.map_map,
    List.flatMap_def]
  congr 1
  refine List.map_congr_left fun k hk => ?_
  have hidx := (closedRanges_index e (e / w + 1) k (Nat.succ_pos _)).1.1 (List.mem_range.1 hk)
  simp only [Function.comp, chunkLines, List.map_map]
  have h1 : (((k * (e / w + 1) : Nat) : Int)).toNat = k * (e / w + 1) := Int.toNat_ofNat _
  have h2 : (((min (k * (e / w + 1) + e / w) e : Nat) : Int) -
      ((k * (e / w + 1) : Nat) : Int) + 1).toNat =
      min (k * (e / w + 1) + e / w) e - k * (e / w + 1) + 1 := by
    generalize k * (e / w + 1) = a at hidx
    generalize e / w = q
    omega
  rw [h1, h2]
  rfl

theorem lineLists_no_newline (rs : List (Int × Int)) :
    ∀ ls ∈ lineLists rs, ∀ l ∈ ls, ∀ c ∈ l, c ≠ '\n' := by
  intro ls hls
  obtain ⟨r, _, rfl⟩ := List.mem_map.1 hls
  exact chunkLines_no_newline _ _

theorem buildChunks_eq (fuel : Nat) (f : Int × Int → GoString) (rs : List (Int × Int))
    (h : ∀ r ∈ rs, stringBuilder fuel r.1 r.2 = some (f r)) :
    buildChunks fuel rs = some (rs.map f) := by
  induction rs with
  | nil => rfl
  | cons r rs ih =>
    have h1 := h r (List.mem_cons_self _ _)
    have h2 := ih fun r' hr' => h r' (List.mem_cons_of_mem _ hr')
    simp [buildChunks, h1, h2]

theorem buildChunks_closedRanges (e w : Nat) (he : e ≤ 16777215) (fuel : Nat)
    (hf : e + 2 ≤ fuel) :
    buildChunks fuel (closedRanges e w) =
      some ((lineLists (closedRanges e w)).map renderLines) := by
  rw [lineLists, List.map_map]
  refine buildChunks_eq fuel _ _ fun r hr => ?_
  obtain ⟨j, hj, rfl⟩ := closedRanges_mem e w r hr
  have hidx := (closedRanges_index e (e / w + 1) j (Nat.succ_pos _)).1.1 hj
  simp only [Function.comp]
  generalize j * (e / w + 1) = a at hidx
  generalize e / w = q
  have h := stringBuilder_eq a (min (a + q) e) (by omega) (by omega) fuel (by omega)
  have h1 : ((a : Nat) : Int).toNat = a := Int.toNat_ofNat _
  have h2 : (((min (a + q) e : Nat) : Int) - ((a : Nat) : Int) + 1).toNat =
      min (a + q) e - a + 1 := by omega
  rw [h, h1, h2]

theorem linesFrom_chunks (lss : List (List GoString))
    (h : ∀ ls ∈ lss, ∀ l ∈ ls, ∀ c ∈ l, c ≠ '\n') :
    linesFrom (lss.map renderLines).flatten [] = some lss.flatten := by
  induction lss with
  | nil => simp [linesFrom]
  | cons ls lss ih =>
    have h1 := h ls (List.mem_cons_self _ _)
    have h2 := ih fun ls' hls' => h ls' (List.mem_cons_of_mem _ hls')
    rw [List.map_cons, List.flatten_cons, linesFrom_renderLines ls h1, h2]
    simp

/-- Whatever the order in which well-formed chunks arrive, the text the writer produces
splits into the chunks' lines, each as often as it is in the chunks. -/
theorem lines_of_any_arrival (lss : List (List GoString))
    (h : ∀ ls ∈ lss, ∀ l ∈ ls, ∀ c ∈ l, c ≠ '\n') (arrival : List GoString)
    (hp : arrival.Perm (lss.map renderLines)) :
    ∃ out, linesOf (writer arrival) = some out ∧ out.Perm lss.flatten := by
  have hback : ∀ ls ∈ lss, (linesOf (renderLines ls)).getD [] = ls := fun ls hls => by
    rw [linesOf_renderLines ls (h ls hls)]; rfl
  have hperm : (arrival.map fun c => (linesOf c).getD []).Perm lss := by
    have h1 := hp.map fun c => (linesOf c).getD []
    rw [List.map_map] at h1
    have h2 : lss.map ((fun c => (linesOf c).getD []) ∘ renderLines) = lss := by
      conv_rhs => rw [← List.map_id lss]
      exact List.map_congr_left fun ls hls => hback ls hls
    rwa [h2] at h1
  have harr : (arrival.map fun c => (linesOf c).getD []).map renderLines = arrival := by
    rw [List.map_map]
    conv_rhs => rw [← List.map_id arrival]
    refine List.map_congr_left fun c hc => ?_
    obtain ⟨ls, hls, rfl⟩ := List.mem_map.1 (hp.mem_iff.1 hc)
    simp only [Function.comp, hback ls hls, id]
  refine ⟨(arrival.map fun c => (linesOf c).getD []).flatten, ?_, hperm.flatten⟩
  rw [writer_eq_flatten, linesOf]
  conv_lhs => rw [← harr]
  exact linesFrom_chunks _ fun ls hls => h ls (hperm.mem_iff.1 hls)

theorem countP_eq_one_of_mem {α : Type} [DecidableEq α] (l : List α) (a : α)
    (hn : l.Nodup) (ha : a ∈ l) : l.countP (fun x => decide (x = a)) = 1 := by
  induction l with
  | nil => cases ha
  | cons x l ih =>
    rw [List.nodup_cons] at hn
    rw [List.countP_cons]
    rcases List.mem_cons.1 ha with rfl | hmem
    · have hzero : l.countP (fun x => decide (x = a)) = 0 := by
        rw [List.countP_eq_zero]
        intro y hy
        simp only [decide_eq_true_eq]
        rintro rfl
        exact hn.1 hy
      simp [hzero]
    · have hx : ¬ x = a := by rintro rfl; exact hn.1 hmem
      simp [ih hn.2 hmem, hx]

theorem hex6_injOn (x y : Nat) (hx : x < 16777216) (hy : y < 16777216)
    (h : hex6 x = hex6 y) : x = y := by
  have h1 := readHex_hexFixed 6 x (by norm_num; omega)
  have h2 := readHex_hexFixed 6 y (by norm_num; omega)
  unfold hex6 at h
  rw [h, h2] at h1
  exact (Option.some.inj h1).symm

/-! ## Claims about the partition loop -/

/-- C1, amended. For every `END ≥ 0` and `WORKER_COUNT ≥ 1` with
`END + END / WORKER_COUNT + 1` within the range of `int`, the partition loop returns a
list of ranges that covers `[0, END]` exactly: every integer `k` with `0 ≤ k ≤ END`
lies in exactly one range, and no range contains an integer outside `[0, END]`. -/
theorem partition_covers_exactly (END W : Int) (h0 : 0 ≤ END) (hW : 1 ≤ W)
    (hb : END + END / W + 1 ≤ maxInt) :
    ∃ rs, (∀ fuel, END.toNat + 2 ≤ fuel → partitionLoop END W fuel 0 = some rs) ∧
      (∀ k : Int, 0 ≤ k → k ≤ END → rs.countP (inRange k) = 1) ∧
      (∀ r ∈ rs, ∀ k : Int, inRange k r = true → 0 ≤ k ∧ k ≤ END) := by
  refine ⟨closedRanges END.toNat W.toNat, partitionLoop_eq END W h0 hW hb, ?_, ?_⟩
  · intro k hk0 hk
    exact closedRanges_countP _ _ k hk0 (by omega)
  · intro r hr k hk
    have := closedRanges_inRange _ _ r hr k hk
    omega

/-- C1 at `END = 25`, `WORKER_COUNT = 4`: the ranges are `[0,6],[7,13],[14,20],[21,25]`. -/
theorem partition_covers_exactly_witness :
    partitionLoop 25 4 27 0 = some [(0, 6), (7, 13), (14, 20), (21, 25)] ∧
    ∃ rs, (∀ fuel, (25 : Int).toNat + 2 ≤ fuel → partitionLoop 25 4 fuel 0 = some rs) ∧
      (∀ k : Int, 0 ≤ k → k ≤ 25 → rs.countP (inRange k) = 1) ∧
      (∀ r ∈ rs, ∀ k : Int, inRange k r = true → 0 ≤ k ∧ k ≤ 25) :=
  ⟨by decide, partition_covers_exactly 25 4 (by decide) (by decide) (by decide)⟩

/-- C1 as stated fails at `END = 2^63 - 1`, `WORKER_COUNT = 2`: `i` wraps to a negative
value after the second range, `i <= end` holds for every `int`, and the loop never
returns a list of ranges. -/
theorem partition_covers_exactly_fails_at_maxInt :
    ¬ ∃ fuel rs, partitionLoop 9223372036854775807 2 fuel 0 = some rs ∧
      (∀ k : Int, 0 ≤ k → k ≤ 9223372036854775807 → rs.countP (inRange k) = 1) := by
  rintro ⟨fuel, rs, h, _⟩
  have := partitionLoop_maxInt 2 (by decide) fuel 0 (by decide)
  unfold maxInt at this
  rw [this] at h
  cases h

/-- C5, amended. For every `END ≥ 0` and `WORKER_COUNT ≥ 1` with
`END + END / WORKER_COUNT + 1` within the range of `int`: the first range starts at 0;
every range other than the last contains exactly `END / WORKER_COUNT + 1` integers and
is followed by a range starting at its upper bound + 1; the last range has upper bound
exactly `END` and contains at least 1 and at most `END / WORKER_COUNT + 1` integers. -/
theorem partition_rule (END W : Int) (h0 : 0 ≤ END) (hW : 1 ≤ W)
    (hb : END + END / W + 1 ≤ maxInt) :
    ∃ rs, (∀ fuel, END.toNat + 2 ≤ fuel → partitionLoop END W fuel 0 = some rs) ∧
      (∃ first, rs.head? = some first ∧ first.1 = 0) ∧
      (∀ (j : Nat) (r : Int × Int), rs[j]? = some r → j + 1 < rs.length →
        rangeSize r = END / W + 1 ∧ ∃ r', rs[j + 1]? = some r' ∧ r'.1 = r.2 + 1) ∧
      (∃ last, rs.getLast? = some last ∧ last.2 = END ∧
        1 ≤ rangeSize last ∧ rangeSize last ≤ END / W + 1) := by
  refine ⟨closedRanges END.toNat W.toNat, partitionLoop_eq END W h0 hW hb, ?_, ?_, ?_⟩
  · have hhead : (closedRanges END.toNat W.toNat).head? = some
        (((0 * (END.toNat / W.toNat + 1) : Nat) : Int),
         ((min (0 * (END.toNat / W.toNat + 1) + END.toNat / W.toNat) END.toNat : Nat) :
           Int)) := by
      unfold closedRanges
      rw [List.head?_map, List.head?_range, if_neg (Nat.succ_ne_zero _)]
      rfl
    exact ⟨_, hhead, by simp⟩
  · obtain ⟨e, rfl⟩ := Int.eq_ofNat_of_zero_le h0
    obtain ⟨w, rfl⟩ := Int.eq_ofNat_of_zero_le (by omega : (0 : Int) ≤ W)
    intro j r hr hj
    simp only [Int.toNat_ofNat] at hr hj ⊢
    rw [closedRanges_length] at hj
    obtain ⟨_, rfl⟩ := closedRanges_getElem? e w j r hr
    have hnext : (closedRanges e w)[j + 1]? = some
        ((((j + 1) * (e / w + 1) : Nat) : Int),
         ((min ((j + 1) * (e / w + 1) + e / w) e : Nat) : Int)) := by
      unfold closedRanges
      rw [List.getElem?_map, List.getElem?_range hj]
      rfl
    have hidx := (closedRanges_index e (e / w + 1) (j + 1) (Nat.succ_pos _)).1.1 hj
    rw [Nat.succ_mul] at hidx
    refine ⟨?_, _, hnext, ?_⟩
    · rw [← Int.ofNat_ediv]
      simp only [rangeSize]
      generalize e / w = q at hidx
      omega
    · simp only []
      rw [Nat.succ_mul]
      generalize e / w = q at hidx
      omega
  · obtain ⟨e, rfl⟩ := Int.eq_ofNat_of_zero_le h0
    obtain ⟨w, rfl⟩ := Int.eq_ofNat_of_zero_le (by omega : (0 : Int) ≤ W)
    simp only [Int.toNat_ofNat]
    have hlast : (closedRanges e w).getLast? = some
        (((e / (e / w + 1) * (e / w + 1) : Nat) : Int),
         ((min (e / (e / w + 1) * (e / w + 1) + e / w) e : Nat) : Int)) := by
      unfold closedRanges
      rw [List.getLast?_map, List.getLast?_range, if_neg (Nat.succ_ne_zero _)]
      rfl
    have h1 := Nat.div_mul_le_self e (e / w + 1)
    have h2 := (closedRanges_index e (e / w + 1) 0 (Nat.succ_pos _)).2
    rw [Nat.succ_mul] at h2
    refine ⟨_, hlast, ?_, ?_, ?_⟩
    · simp only []
      generalize e / (e / w + 1) * (e / w + 1) = a at h1 h2
      generalize e / w = q at h1 h2
      omega
    · simp only [rangeSize]
      generalize e / (e / w + 1) * (e / w + 1) = a at h1 h2
      generalize e / w = q at h1 h2
      omega
    · rw [← Int.ofNat_ediv]
      simp only [rangeSize]
      generalize e / (e / w + 1) * (e / w + 1) = a at h1 h2
      generalize e / w = q at h1 h2
      omega

/-- C5 at `END = 25`, `WORKER_COUNT = 4`. -/
theorem partition_rule_witness :
    ∃ rs, (∀ fuel, (25 : Int).toNat + 2 ≤ fuel → partitionLoop 25 4 fuel 0 = some rs) ∧
      (∃ first, rs.head? = some first ∧ first.1 = 0) ∧
      (∀ (j : Nat) (r : Int × Int), rs[j]? = some r → j + 1 < rs.length →
        rangeSize r = 25 / 4 + 1 ∧ ∃ r', rs[j + 1]? = some r' ∧ r'.1 = r.2 + 1) ∧
      (∃ last, rs.getLast? = some last ∧ last.2 = 25 ∧
        1 ≤ rangeSize last ∧ rangeSize last ≤ 25 / 4 + 1) :=
  partition_rule 25 4 (by decide) (by decide) (by decide)

/-- C5 as stated fails at `END = 2^63 - 1`, `WORKER_COUNT = 3`: the loop variable wraps
and the loop never returns, so there is no last range with upper bound `END`. -/
theorem partition_rule_fails_at_maxInt :
    ¬ ∃ fuel rs, partitionLoop 9223372036854775807 3 fuel 0 = some rs ∧
      ∃ last, rs.getLast? = some last ∧ last.2 = 9223372036854775807 := by
  rintro ⟨fuel, rs, h, _⟩
  have := partitionLoop_maxInt 3 (by decide) fuel 0 (by decide)
  unfold maxInt at this
  rw [this] at h
  cases h

theorem succ_mod_eq_zero_iff (e s : Nat) (hs : 0 < s) :
    (e + 1) % s = 0 ↔ e % s + 1 = s := by
  have hlt := Nat.mod_lt e hs
  have hm : (e + 1) % s = (e % s + 1) % s := by
    conv_lhs => rw [← Nat.div_add_mod e s, Nat.add_assoc, Nat.mul_add_mod]
  rw [hm]
  constructor
  · intro h
    by_contra hne
    rw [Nat.mod_eq_of_lt (by omega)] at h
    omega
  · intro h
    rw [h, Nat.mod_self]

/-- C7, amended. For every `END ≥ 0` and `WORKER_COUNT ≥ 1` with
`END + END / WORKER_COUNT + 1` within the range of `int`, when the loop produces at
least two ranges, the last range contains at most as many integers as each of the
other ranges, and strictly fewer exactly when `END + 1` is not a multiple of
`END / WORKER_COUNT + 1`. -/
theorem last_range_size (END W : Int) (h0 : 0 ≤ END) (hW : 1 ≤ W)
    (hb : END + END / W + 1 ≤ maxInt) :
    ∃ rs, (∀ fuel, END.toNat + 2 ≤ fuel → partitionLoop END W fuel 0 = some rs) ∧
      ∀ last, rs.getLast? = some last →
        ∀ (j : Nat) (r : Int × Int), rs[j]? = some r → j + 1 < rs.length →
          rangeSize last ≤ rangeSize r ∧
          (rangeSize last < rangeSize r ↔ (END + 1) % (END / W + 1) ≠ 0) := by
  refine ⟨closedRanges END.toNat W.toNat, partitionLoop_eq END W h0 hW hb, ?_⟩
  obtain ⟨e, rfl⟩ := Int.eq_ofNat_of_zero_le h0
  obtain ⟨w, rfl⟩ := Int.eq_ofNat_of_zero_le (by omega : (0 : Int) ≤ W)
  simp only [Int.toNat_ofNat]
  intro last hlast j r hr hj
  rw [closedRanges_length] at hj
  obtain ⟨_, rfl⟩ := closedRanges_getElem? e w j r hr
  have hl : (closedRanges e w).getLast? = some
      (((e / (e / w + 1) * (e / w + 1) : Nat) : Int),
       ((min (e / (e / w + 1) * (e / w + 1) + e / w) e : Nat) : Int)) := by
    unfold closedRanges
    rw [List.getLast?_map, List.getLast?_range, if_neg (Nat.succ_ne_zero _)]
    rfl
  rw [hl] at hlast
  cases hlast
  have hidx := (closedRanges_index e (e / w + 1) (j + 1) (Nat.succ_pos _)).1.1 hj
  rw [Nat.succ_mul] at hidx
  have h2 := (closedRanges_index e (e / w + 1) 0 (Nat.succ_pos _)).2
  rw [Nat.succ_mul] at h2
  have h3 := Nat.div_add_mod e (e / w + 1)
  rw [Nat.mul_comm] at h3
  have h4 := succ_mod_eq_zero_iff e (e / w + 1) (Nat.succ_pos _)
  have hcast : ((e : Int) + 1) % ((e : Int) / (w : Int) + 1) =
      (((e + 1) % (e / w + 1) : Nat) : Int) := by
    push_cast; rfl
  rw [hcast]
  simp only [rangeSize]
  generalize (e + 1) % (e / w + 1) = m at h4
  generalize e % (e / w + 1) = t at h3 h4
  generalize e / (e / w + 1) * (e / w + 1) = a at h2 h3
  generalize j * (e / w + 1) = b at hidx
  generalize e / w = q at h2 h3 h4 hidx
  omega

/-- C7 at `END = 25`, `WORKER_COUNT = 4`: sizes 7, 7, 7, 5, and 26 is not a multiple
of 7. -/
theorem last_range_size_witness :
    ∃ rs, (∀ fuel, (25 : Int).toNat + 2 ≤ fuel → partitionLoop 25 4 fuel 0 = some rs) ∧
      ∀ last, rs.getLast? = some last →
        ∀ (j : Nat) (r : Int × Int), rs[j]? = some r → j + 1 < rs.length →
          rangeSize last ≤ rangeSize r ∧
          (rangeSize last < rangeSize r ↔ ((25 : Int) + 1) % (25 / 4 + 1) ≠ 0) :=
  last_range_size 25 4 (by decide) (by decide) (by decide)

/-- C7 as stated fails at `END = 3`, `WORKER_COUNT = 2`: 3 is not divisible by 2, the
loop produces the two ranges `[0,1]` and `[2,3]`, and the last is as large as the
first. -/
theorem last_range_not_smaller_at_3_2 :
    partitionLoop 3 2 5 0 = some [(0, 1), (2, 3)] ∧ (3 : Int) % 2 ≠ 0 ∧
    ¬ (rangeSize (2, 3) < rangeSize (0, 1)) := by
  decide

theorem ceil_div_eq (e q : Nat) :
    Int.ceil ((((e : Int) + 1 : Int) : ℚ) / ((((q : Int) + 1 : Int)) : ℚ)) =
      ((e / (q + 1) + 1 : Nat) : Int) := by
  have hs : (0 : ℚ) < (q : ℚ) + 1 := by positivity
  have h1 : ((e / (q + 1) * (q + 1) : Nat) : ℚ) ≤ (e : ℚ) := by
    exact_mod_cast Nat.div_mul_le_self e (q + 1)
  have h2 : ((e + 1 : Nat) : ℚ) ≤ (((e / (q + 1) + 1) * (q + 1) : Nat) : ℚ) := by
    exact_mod_cast (closedRanges_index e (q + 1) 0 (Nat.succ_pos _)).2
  generalize e / (q + 1) = a at h1 h2 ⊢
  push_cast at h1 h2
  rw [Int.ceil_eq_iff]
  push_cast
  constructor
  · rw [lt_div_iff₀ hs]
    linarith
  · rw [div_le_iff₀ hs]
    linarith

/-- C10, amended. For every `END ≥ 0` and `WORKER_COUNT ≥ 1` with
`END + END / WORKER_COUNT + 1` within the range of `int`, the partition loop terminates
and the number of ranges it produces is `ceil((END + 1) / (END / WORKER_COUNT + 1))`,
at least 1 and at most `WORKER_COUNT`; the wait loop, when it returns, has received
`WORKER_COUNT` signals and leaves no worker blocked; and when the count is strictly
below `WORKER_COUNT` the wait loop never collects `WORKER_COUNT` signals. -/
theorem partition_count (END W : Int) (h0 : 0 ≤ END) (hW : 1 ≤ W)
    (hb : END + END / W + 1 ≤ maxInt) :
    ∃ rs, (∀ fuel, END.toNat + 2 ≤ fuel → partitionLoop END W fuel 0 = some rs) ∧
      Int.ceil (((END + 1 : Int) : ℚ) / ((END / W + 1 : Int) : ℚ)) = (rs.length : Int) ∧
      1 ≤ rs.length ∧ (rs.length : Int) ≤ W ∧
      (∀ d left, awaitWorkers W rs.length 0 = some (d, left) → d = W ∧ left = 0) ∧
      ((rs.length : Int) < W → awaitWorkers W rs.length 0 = none) := by
  refine ⟨closedRanges END.toNat W.toNat, partitionLoop_eq END W h0 hW hb, ?_⟩
  obtain ⟨e, rfl⟩ := Int.eq_ofNat_of_zero_le h0
  obtain ⟨w, rfl⟩ := Int.eq_ofNat_of_zero_le (by omega : (0 : Int) ≤ W)
  simp only [Int.toNat_ofNat]
  have hw : 1 ≤ w := by omega
  have hlen := closedRanges_length e w
  have hle := closedRanges_length_le e w hw
  have hdiv := Nat.div_le_self e (e / w + 1)
  have hb' : ((e + e / w + 1 : Nat) : Int) ≤ maxInt := by push_cast; exact hb
  have hmax : (0 : Int) + ((closedRanges e w).length : Int) ≤ maxInt := by
    rw [hlen]
    unfold maxInt at hb' ⊢
    clear hb
    generalize e / (e / w + 1) = a at hdiv
    generalize e / w = q at hb'
    omega
  have hawait := awaitWorkers_eq (w : Int) (closedRanges e w).length 0 (le_refl _)
    (by omega) hmax
  refine ⟨?_, by rw [hlen]; exact Nat.succ_pos _, by exact_mod_cast hle, ?_, ?_⟩
  · rw [hlen, ← Int.ofNat_ediv]
    exact ceil_div_eq e (e / w)
  · intro d left h
    rw [hawait] at h
    split at h
    · cases h; exact ⟨rfl, rfl⟩
    · cases h
  · intro hlt
    rw [hawait, if_neg (by omega)]

/-- C10 at `END = 5`, `WORKER_COUNT = 4`: three ranges, `ceil(6 / 2) = 3 < 4`, and the
wait loop blocks. -/
theorem partition_count_witness :
    partitionLoop 5 4 7 0 = some [(0, 1), (2, 3), (4, 5)] ∧
    ∃ rs, (∀ fuel, (5 : Int).toNat + 2 ≤ fuel → partitionLoop 5 4 fuel 0 = some rs) ∧
      Int.ceil ((((5 : Int) + 1 : Int) : ℚ) / (((5 : Int) / 4 + 1 : Int) : ℚ)) =
        (rs.length : Int) ∧
      1 ≤ rs.length ∧ (rs.length : Int) ≤ 4 ∧
      (∀ d left, awaitWorkers 4 rs.length 0 = some (d, left) → d = 4 ∧ left = 0) ∧
      ((rs.length : Int) < 4 → awaitWorkers 4 rs.length 0 = none) :=
  ⟨by decide, partition_count 5 4 (by decide) (by decide) (by decide)⟩

/-- C10 as stated fails at `END = 2^63 - 1`, `WORKER_COUNT = 1`: after the first range
`i + end + 1` wraps to `-2^63`, `i <= end` stays true, and the loop does not
terminate. -/
theorem partition_diverges_at_maxInt :
    ¬ ∃ fuel rs, partitionLoop 9223372036854775807 1 fuel 0 = some rs := by
  rintro ⟨fuel, rs, h⟩
  have := partitionLoop_maxInt 1 (by decide) fuel 0 (by decide)
  unfold maxInt at this
  rw [this] at h
  cases h

/-- C4. With the shipped constants `end = 16777215` and `numGoRoutines = 10` the
partition loop produces exactly 10 ranges, and the wait loop then receives exactly 10
completion signals, with no worker left blocked, before `writerCh` is closed. -/
theorem shipped_constants_ten_workers :
    ∃ rs, partitionLoop endVal numGoRoutines (endVal.toNat + 2) 0 = some rs ∧
      rs.length = 10 ∧ awaitWorkers numGoRoutines rs.length 0 = some (10, 0) :=
  ⟨[(0, 1677721), (1677722, 3355443), (3355444, 5033165), (5033166, 6710887),
    (6710888, 8388609), (8388610, 10066331), (10066332, 11744053),
    (11744054, 13421775), (13421776, 15099497), (15099498, 16777215)],
   by decide, by decide, by decide⟩

/-- C6, amended. For every `END ≥ 0` and `WORKER_COUNT ≥ 1` with
`END + END / WORKER_COUNT + 1` within the range of `int`, the partition loop produces at
most `WORKER_COUNT` ranges, and exactly `WORKER_COUNT` ranges exactly when
`(WORKER_COUNT - 1) * (END / WORKER_COUNT + 1) ≤ END`; in that case the wait loop
receives `WORKER_COUNT` signals, one from each launched worker, and returns. -/
theorem partition_count_eq_workers (END W : Int) (h0 : 0 ≤ END) (hW : 1 ≤ W)
    (hb : END + END / W + 1 ≤ maxInt) :
    ∃ rs, (∀ fuel, END.toNat + 2 ≤ fuel → partitionLoop END W fuel 0 = some rs) ∧
      (rs.length : Int) ≤ W ∧
      ((rs.length : Int) = W ↔ (W - 1) * (END / W + 1) ≤ END) ∧
      ((rs.length : Int) = W → awaitWorkers W rs.length 0 = some (W, 0)) := by
  refine ⟨closedRanges END.toNat W.toNat, partitionLoop_eq END W h0 hW hb, ?_⟩
  obtain ⟨e, rfl⟩ := Int.eq_ofNat_of_zero_le h0
  obtain ⟨w, rfl⟩ := Int.eq_ofNat_of_zero_le (by omega : (0 : Int) ≤ W)
  simp only [Int.toNat_ofNat]
  have hw : 1 ≤ w := by omega
  have hlen := closedRanges_length e w
  have hle := closedRanges_length_le e w hw
  have hdiv := Nat.div_le_self e (e / w + 1)
  have hb' : ((e + e / w + 1 : Nat) : Int) ≤ maxInt := by push_cast; exact hb
  have hmax : (0 : Int) + ((closedRanges e w).length : Int) ≤ maxInt := by
    rw [hlen]
    unfold maxInt at hb' ⊢
    clear hb
    generalize e / (e / w + 1) = a at hdiv
    generalize e / w = q at hb'
    omega
  have hleInt : ((closedRanges e w).length : Int) ≤ (w : Int) := by exact_mod_cast hle
  have hawait := awaitWorkers_eq (w : Int) (closedRanges e w).length 0 (le_refl _)
    (by omega) hmax
  have hcast : ((w : Int) - 1) * ((e : Int) / (w : Int) + 1) =
      (((w - 1) * (e / w + 1) : Nat) : Int) := by
    push_cast [Nat.cast_sub hw]; rfl
  have hiff : (closedRanges e w).length = w ↔ (w - 1) * (e / w + 1) ≤ e := by
    rw [hlen] at hle
    rw [hlen, ← Nat.le_div_iff_mul_le (Nat.succ_pos _)]
    clear hb hb' hmax hawait hcast hleInt hlen hdiv
    generalize e / (e / w + 1) = a at hle ⊢
    omega
  refine ⟨hleInt, ?_, ?_⟩
  · rw [hcast, Int.ofNat_le, ← hiff]
    exact Int.ofNat_inj
  · intro heq
    rw [hawait, if_pos (by omega)]

/-- C6 at `END = 25`, `WORKER_COUNT = 4`: `3 * 7 ≤ 25`, four ranges and four signals. -/
theorem partition_count_eq_workers_witness :
    partitionLoop 25 4 27 0 = some [(0, 6), (7, 13), (14, 20), (21, 25)] ∧
    ∃ rs, (∀ fuel, (25 : Int).toNat + 2 ≤ fuel → partitionLoop 25 4 fuel 0 = some rs) ∧
      (rs.length : Int) ≤ 4 ∧
      ((rs.length : Int) = 4 ↔ ((4 : Int) - 1) * (25 / 4 + 1) ≤ 25) ∧
      ((rs.length : Int) = 4 → awaitWorkers 4 rs.length 0 = some (4, 0)) :=
  ⟨by decide, partition_count_eq_workers 25 4 (by decide) (by decide) (by decide)⟩

/-- C6 as stated fails at `END = 5`, `WORKER_COUNT = 4`: the partition loop produces the
three ranges `[0,1]`, `[2,3]` and `[4,5]`, not four, and a wait loop counting to four
never collects a fourth signal. -/
theorem three_workers_for_four_signals :
    partitionLoop 5 4 7 0 = some [(0, 1), (2, 3), (4, 5)] ∧
    [((0 : Int), (1 : Int)), (2, 3), (4, 5)].length ≠ 4 ∧
    awaitWorkers 4 [((0 : Int), (1 : Int)), (2, 3), (4, 5)].length 0 = none := by
  decide

/-! ## Claims about the worker -/

/-- C3. For `0 ≤ start ≤ end ≤ 16777215` the string `stringBuilder(start, end, ...)`
sends is the concatenation, for `i = start, ..., end` in that order, of `line(i)`
followed by one newline, where `line(i)` is exactly six characters from `0-9a-f`
whose base-16 value is `i`; the chunk has `end - start + 1` lines and
`7 * (end - start + 1)` bytes, and its `k`-th line denotes `start + k`. -/
theorem chunk_rendering (start endV : Int) (h0 : 0 ≤ start) (h1 : start ≤ endV)
    (h2 : endV ≤ 16777215) :
    ∃ chunk ls,
      (∀ fuel, (endV - start).toNat + 2 ≤ fuel → stringBuilder fuel start endV = some chunk) ∧
      chunk = renderLines ls ∧ linesOf chunk = some ls ∧
      (ls.length : Int) = endV - start + 1 ∧
      (chunk.length : Int) = 7 * (endV - start + 1) ∧
      ∀ (k : Nat) (l : GoString), ls[k]? = some l →
        l.length = 6 ∧ (∀ c ∈ l, c ∈ "0123456789abcdef".toList) ∧
        ∃ v, readHex l = some v ∧ (v : Int) = start + k := by
  obtain ⟨a, rfl⟩ := Int.eq_ofNat_of_zero_le h0
  obtain ⟨b, rfl⟩ := Int.eq_ofNat_of_zero_le (by omega : (0 : Int) ≤ endV)
  have hab : a ≤ b := by omega
  have hb : b ≤ 16777215 := by omega
  have hlen : (chunkLines a (b - a + 1)).length = b - a + 1 := by simp [chunkLines]
  refine ⟨renderLines (chunkLines a (b - a + 1)), chunkLines a (b - a + 1), ?_, rfl,
    linesOf_renderLines _ (chunkLines_no_newline _ _), ?_, ?_, ?_⟩
  · intro fuel hf
    exact stringBuilder_eq a b hab hb fuel (by omega)
  · rw [hlen]; omega
  · rw [renderLines_length _ 6, hlen]
    · omega
    · intro l hl
      obtain ⟨k, _, rfl⟩ := List.mem_map.1 hl
      exact hexFixed_length 6 _
  · intro k l hl
    obtain ⟨hk, rfl⟩ := chunkLines_getElem? _ _ _ _ hl
    refine ⟨hexFixed_length 6 _, fun c hc => (hexFixed_mem 6 _ c hc).1, a + k, ?_, ?_⟩
    · exact readHex_hexFixed 6 _ (by norm_num; omega)
    · omega

/-- C3 at `start = 4`, `end = 6`: the chunk is `000004`, `000005`, `000006`, one per
line. -/
theorem chunk_rendering_witness :
    stringBuilder 4 4 6 = some "000004\n000005\n000006\n".toList ∧
    ∃ chunk ls,
      (∀ fuel, ((6 : Int) - 4).toNat + 2 ≤ fuel → stringBuilder fuel 4 6 = some chunk) ∧
      chunk = renderLines ls ∧ linesOf chunk = some ls ∧
      (ls.length : Int) = 6 - 4 + 1 ∧
      (chunk.length : Int) = 7 * (6 - 4 + 1) ∧
      ∀ (k : Nat) (l : GoString), ls[k]? = some l →
        l.length = 6 ∧ (∀ c ∈ l, c ∈ "0123456789abcdef".toList) ∧
        ∃ v, readHex l = some v ∧ (v : Int) = 4 + k :=
  ⟨by decide, chunk_rendering 4 6 (by decide) (by decide) (by decide)⟩

/-- C8. For `0 ≤ start ≤ end ≤ 16777215`, each line of the chunk built by
`stringBuilder(start, end, ...)` is strictly smaller than the line after it, both as
the hexadecimal number it denotes and in byte-wise lexicographic string order. -/
theorem chunk_lines_increasing (start endV : Int) (h0 : 0 ≤ start) (h1 : start ≤ endV)
    (h2 : endV ≤ 16777215) :
    ∃ chunk ls,
      (∀ fuel, (endV - start).toNat + 2 ≤ fuel → stringBuilder fuel start endV = some chunk) ∧
      linesOf chunk = some ls ∧
      ∀ (k : Nat) (x y : GoString), ls[k]? = some x → ls[k + 1]? = some y →
        String.mk x < String.mk y ∧
        ∃ u v, readHex x = some u ∧ readHex y = some v ∧ u < v := by
  obtain ⟨a, rfl⟩ := Int.eq_ofNat_of_zero_le h0
  obtain ⟨b, rfl⟩ := Int.eq_ofNat_of_zero_le (by omega : (0 : Int) ≤ endV)
  have hab : a ≤ b := by omega
  have hb : b ≤ 16777215 := by omega
  refine ⟨renderLines (chunkLines a (b - a + 1)), chunkLines a (b - a + 1), ?_,
    linesOf_renderLines _ (chunkLines_no_newline _ _), ?_⟩
  · intro fuel hf
    exact stringBuilder_eq a b hab hb fuel (by omega)
  · intro k x y hx hy
    obtain ⟨_, rfl⟩ := chunkLines_getElem? _ _ _ _ hx
    obtain ⟨hk, rfl⟩ := chunkLines_getElem? _ _ _ _ hy
    have hv : a + (k + 1) < 16 ^ 6 := by norm_num; omega
    have hlt : List.lt (hex6 (a + k)) (hex6 (a + (k + 1))) :=
      hexFixed_lt 6 (a + k) (a + (k + 1)) (by omega) hv
    refine ⟨String.lt_iff_toList_lt.2 ((List.lt_iff_lex_lt _ _).1 hlt), a + k, a + (k + 1),
      ?_, ?_, by omega⟩
    · exact readHex_hexFixed 6 _ (by omega)
    · exact readHex_hexFixed 6 _ hv

/-- C8 at `start = 9`, `end = 17`: the lines `000009`, `00000a`, ..., `000011`. -/
theorem chunk_lines_increasing_witness :
    ∃ chunk ls,
      (∀ fuel, ((17 : Int) - 9).toNat + 2 ≤ fuel → stringBuilder fuel 9 17 = some chunk) ∧
      linesOf chunk = some ls ∧
      ∀ (k : Nat) (x y : GoString), ls[k]? = some x → ls[k + 1]? = some y →
        String.mk x < String.mk y ∧
        ∃ u v, readHex x = some u ∧ readHex y = some v ∧ u < v :=
  chunk_lines_increasing 9 17 (by decide) (by decide) (by decide)

/-! ## Claims about the output -/

/-- C2. For every `END` with `0 ≤ END ≤ 16777215` and every `WORKER_COUNT ≥ 1`, and for
every order in which the chunks built by `stringBuilder` for the partition ranges are
appended by the writer, the resulting text splits into exactly `END + 1`
newline-terminated lines, and for every integer `i` in `[0, END]` exactly one of those
lines equals the 6-digit zero-padded lowercase hexadecimal of `i`. -/
theorem output_well_formed (END W : Int) (h0 : 0 ≤ END) (h1 : END ≤ 16777215)
    (hW : 1 ≤ W) :
    ∃ rs chunks,
      (∀ fuel, END.toNat + 2 ≤ fuel →
        partitionLoop END W fuel 0 = some rs ∧ buildChunks fuel rs = some chunks) ∧
      ∀ arrival : List GoString, arrival.Perm chunks →
        ∃ ls, linesOf (writer arrival) = some ls ∧ (ls.length : Int) = END + 1 ∧
          ∀ i : Nat, (i : Int) ≤ END → ls.countP (fun l => decide (l = hex6 i)) = 1 := by
  have hb : END + END / W + 1 ≤ maxInt := by
    have hq : END / W ≤ END := Int.ediv_le_self _ h0
    unfold maxInt
    omega
  have hpart := partitionLoop_eq END W h0 hW hb
  obtain ⟨e, rfl⟩ := Int.eq_ofNat_of_zero_le h0
  obtain ⟨w, rfl⟩ := Int.eq_ofNat_of_zero_le (by omega : (0 : Int) ≤ W)
  simp only [Int.toNat_ofNat] at hpart ⊢
  have he : e ≤ 16777215 := by omega
  refine ⟨closedRanges e w, (lineLists (closedRanges e w)).map renderLines, ?_, ?_⟩
  · intro fuel hf
    exact ⟨hpart fuel hf, buildChunks_closedRanges e w he fuel hf⟩
  · intro arrival hp
    obtain ⟨out, hout, hperm⟩ :=
      lines_of_any_arrival _ (lineLists_no_newline _) arrival hp
    rw [lineLists_flatten] at hperm
    refine ⟨out, hout, ?_, ?_⟩
    · rw [hperm.length_eq]
      simp
    · intro i hi
      have hi' : i < e + 1 := by omega
      have hnodup : ((List.range (e + 1)).map hex6).Nodup :=
        (List.nodup_range _).map_on fun x hx y hy hxy =>
          hex6_injOn x y (by have := List.mem_range.1 hx; omega)
            (by have := List.mem_range.1 hy; omega) hxy
      rw [hperm.countP_eq]
      exact countP_eq_one_of_mem _ _ hnodup
        (List.mem_map.2 ⟨i, List.mem_range.2 hi', rfl⟩)

/-- C2 at `END = 6`, `WORKER_COUNT = 2`: the chunks for 0-3 and 4-6, and the seven lines
`000000` through `000006` when the second chunk arrives first. -/
theorem output_well_formed_witness :
    (partitionLoop 6 2 8 0 = some [(0, 3), (4, 6)] ∧
     buildChunks 8 [(0, 3), (4, 6)] = some
       ["000000\n000001\n000002\n000003\n".toList, "000004\n000005\n000006\n".toList] ∧
     linesOf (writer
       ["000004\n000005\n000006\n".toList, "000000\n000001\n000002\n000003\n".toList]) =
       some ["000004".toList, "000005".toList, "000006".toList, "000000".toList,
         "000001".toList, "000002".toList, "000003".toList]) ∧
    ∃ rs chunks,
      (∀ fuel, (6 : Int).toNat + 2 ≤ fuel →
        partitionLoop 6 2 fuel 0 = some rs ∧ buildChunks fuel rs = some chunks) ∧
      ∀ arrival : List GoString, arrival.Perm chunks →
        ∃ ls, linesOf (writer arrival) = some ls ∧ (ls.length : Int) = 6 + 1 ∧
          ∀ i : Nat, (i : Int) ≤ 6 → ls.countP (fun l => decide (l = hex6 i)) = 1 :=
  ⟨by decide, output_well_formed 6 2 (by decide) (by decide) (by decide)⟩

end Demo
